/-
  Verification of the decentralization analytics engine of the sfdp-dashboard
  repository (src/collect-enhanced.js and src/collect-network.js).

  The JavaScript is shallowly embedded.  JS numbers are modelled as rationals;
  an explicit `JsNum` type is used for those computations whose denominator can
  be zero, where JS produces NaN or a signed infinity.  JS objects used as
  string-keyed maps are modelled as insertion-ordered association lists, and
  `Array.prototype.sort` (stable, per the ECMAScript specification) is
  modelled as a stable insertion sort on the comparator's key.  Rational
  division `x / 0 = 0` is used only where every claim below constrains the
  denominator to be nonzero; the `JsNum` model is used where the zero
  denominator itself is the subject of a claim.
-/
import Mathlib

/-- Result of a JavaScript floating-point computation: either a finite value
(modelled exactly as a rational) or one of the non-finite values `NaN`,
`+Infinity`, `-Infinity` that JS division by zero produces. -/
inductive JsNum where
  | fin (q : ℚ)
  | nan
  | inf
  | ninf
deriving DecidableEq, Repr

/-- JavaScript division `a / b`: `0/0` is `NaN` and `a/0` for `a ≠ 0` is a
signed infinity. -/
def jsDiv (a b : ℚ) : JsNum :=
  if b = 0 then (if a = 0 then .nan else if 0 < a then .inf else .ninf)
  else .fin (a / b)

/-- Multiplication of a JS value by the positive constant `100` (as in
`x / total * 100`); `NaN` and the infinities are absorbing. -/
def jsMul100 : JsNum → JsNum
  | .fin q => .fin (q * 100)
  | x => x

/-- Numeric value of the string produced by `q.toFixed(d)`: `q` rounded to `d`
decimal places, ties rounded up as in ECMAScript `toFixed`. -/
def toFixedVal (d : ℕ) (q : ℚ) : ℚ :=
  ((round (q * 10 ^ d) : ℤ) : ℚ) / 10 ^ d

/-! JS objects used as string-keyed maps: insertion-ordered association lists
(string keys of a JS object enumerate in insertion order). -/

/-- Lookup `obj[k]` in a JS object modelled as an association list. -/
def getA {β : Type} (k : String) : List (String × β) → Option β
  | [] => none
  | p :: rest => if p.1 = k then some p.2 else getA k rest

/-- Assignment `obj[k] = v`: replaces the value at an existing key in place,
otherwise appends the new key at the end (insertion order). -/
def setA {β : Type} (k : String) (v : β) : List (String × β) → List (String × β)
  | [] => [(k, v)]
  | p :: rest => if p.1 = k then (k, v) :: rest else p :: setA k v rest

/-- The JS pattern `if (!obj[k]) obj[k] = ini; f(obj[k])` mutating the entry at
key `k` in place, creating it first when absent. -/
def upsert {β : Type} (k : String) (ini : β) (f : β → β) (m : List (String × β)) :
    List (String × β) :=
  setA k (f ((getA k m).getD ini)) m

/-! The delegation data model shared by `collect-enhanced.js` (main) and
`collect-network.js` (`analyzeStakeAccounts`). -/

/-- The deactivation-epoch sentinel `2^64 - 1`, compared as a string exactly as
in `del.deactivationEpoch !== "18446744073709551615"`. -/
def sentinelEpoch : String := "18446744073709551615"

/-- A parsed stake delegation (`acct.account.data.parsed.info.stake.delegation`):
`stake` is the integer lamports value produced by `parseInt(del.stake)`. -/
structure Delegation where
  stake : ℕ
  voter : String
  deactivationEpoch : String
  activationEpoch : ℕ
deriving DecidableEq, Repr

/-- `parseInt(del.stake) / 1e9`: stake in SOL. -/
def Delegation.solStake (d : Delegation) : ℚ := (d.stake : ℚ) / 1000000000

/-- `del.deactivationEpoch !== "18446744073709551615"`. -/
def Delegation.deactivating (d : Delegation) : Bool := d.deactivationEpoch ≠ sentinelEpoch

/-- A stake account as consumed by the aggregation loop: accounts without a
`delegation` sub-object are counted as empty. -/
structure StakeAccount where
  delegation : Option Delegation
deriving DecidableEq, Repr

/-- Per-validator aggregate built by `analyzeStakeAccounts`
(`collect-network.js` lines 316-330); the aggregate of `collect-enhanced.js`
lines 105-108 is its projection without `totalStake`/`activationEpochs`. -/
structure ValidatorAgg where
  voter : String
  stakeAccounts : ℕ
  totalStake : ℚ
  activeStake : ℚ
  deactivatingStake : ℚ
  activationEpochs : List ℕ
deriving DecidableEq, Repr

/-- The freshly created aggregate for a first-seen voter identity. -/
def zeroAgg (voter : String) : ValidatorAgg := ⟨voter, 0, 0, 0, 0, []⟩

/-- One delegation record folded into its validator's aggregate: increments the
account count, adds the stake to `totalStake` and to exactly one of
`activeStake`/`deactivatingStake`, and appends the activation epoch. -/
def applyDel (d : Delegation) (a : ValidatorAgg) : ValidatorAgg :=
  { a with
    stakeAccounts := a.stakeAccounts + 1
    totalStake := a.totalStake + d.solStake
    activeStake := if d.deactivating then a.activeStake else a.activeStake + d.solStake
    deactivatingStake :=
      if d.deactivating then a.deactivatingStake + d.solStake else a.deactivatingStake
    activationEpochs := a.activationEpochs ++ [d.activationEpoch] }

/-- Mutable state of the aggregation loop: running totals plus the
`validators` object keyed by voter identity. -/
structure FoldState where
  totalActive : ℚ
  totalDeactivating : ℚ
  totalEmpty : ℕ
  validators : List (String × ValidatorAgg)
deriving DecidableEq, Repr

/-- One iteration of the aggregation loop (`collect-network.js` lines 296-331,
`collect-enhanced.js` lines 96-109). -/
def foldStep (st : FoldState) (acct : StakeAccount) : FoldState :=
  match acct.delegation with
  | none => { st with totalEmpty := st.totalEmpty + 1 }
  | some d =>
    { totalActive := if d.deactivating then st.totalActive else st.totalActive + d.solStake
      totalDeactivating :=
        if d.deactivating then st.totalDeactivating + d.solStake else st.totalDeactivating
      totalEmpty := st.totalEmpty
      validators := upsert d.voter (zeroAgg d.voter) (applyDel d) st.validators }

/-- The whole aggregation loop, starting from empty totals and an empty
`validators` object. -/
def foldAccounts (accounts : List StakeAccount) : FoldState :=
  accounts.foldl foldStep ⟨0, 0, 0, []⟩

/-! Sorting.  `Array.prototype.sort` with comparator `(a, b) => b.key - a.key`
is a stable descending sort by `key`; stable insertion sort models it. -/

/-- `Object.values(validators).sort((a, b) => b.activeStake - a.activeStake)`. -/
def sortByActiveDesc (l : List ValidatorAgg) : List ValidatorAgg :=
  l.insertionSort (fun a b => b.activeStake ≤ a.activeStake)

/-- Descending sort of a list of rationals. -/
def sortQDesc (l : List ℚ) : List ℚ := l.insertionSort (fun a b => b ≤ a)

/-- `[...stakes].sort((a, b) => a - b)`: the independently re-sorted ascending
copy used by the Gini computation. -/
def sortAsc (l : List ℚ) : List ℚ := l.insertionSort (fun a b => a ≤ b)

/-! Concentration metrics (spec section 4.3). -/

/-- The Nakamoto-style cut loop `running += s; k++; if (running >= th) break;`
returning the number of consumed entries (0 on an empty list). -/
def nakLoop (th : ℚ) : ℚ → List ℚ → ℕ
  | _, [] => 0
  | run, s :: rest => if th ≤ run + s then 1 else 1 + nakLoop th (run + s) rest

/-- Nakamoto coefficient with the `totalActive / 3` threshold
(`collect-enhanced.js` lines 148-149, `collect-network.js` lines 343-349). -/
def nakamoto33 (totalActive : ℚ) (stakes : List ℚ) : ℕ :=
  nakLoop (totalActive / 3) 0 stakes

/-- Superminority count with the `totalActive * 0.33` threshold
(`collect-network.js` lines 352-358). -/
def superminorityCount (totalActive : ℚ) (stakes : List ℚ) : ℕ :=
  nakLoop (totalActive * (33 / 100)) 0 stakes

/-- Herfindahl-Hirschman index: sum of `sh * sh` for `sh = s / totalActive`
(`collect-enhanced.js` lines 152-153, `collect-network.js` lines 361-365). -/
def hhi (totalActive : ℚ) (stakes : List ℚ) : ℚ :=
  (stakes.map (fun s => (s / totalActive) * (s / totalActive))).sum

/-- The Gini numerator loop `for (i...) giniSum += (2*(i+1) - n - 1) * asc[i]`,
with the index threaded explicitly. -/
def giniLoop (n : ℚ) : ℕ → List ℚ → ℚ
  | _, [] => 0
  | i, a :: rest => (2 * ((i : ℚ) + 1) - n - 1) * a + giniLoop n (i + 1) rest

/-- The Gini numerator `giniSum` over an ascending list. -/
def giniNum (asc : List ℚ) : ℚ := giniLoop (asc.length : ℚ) 0 asc

/-- Gini coefficient (`collect-network.js` lines 367-374, identical in
`collect-enhanced.js` lines 156-160): `n > 0 ? giniSum / (n * sum) : 0`. -/
def gini (stakes : List ℚ) : JsNum :=
  let n := stakes.length
  let asc := sortAsc stakes
  if 0 < n then jsDiv (giniNum asc) ((n : ℚ) * asc.sum) else .fin 0

/-! Stake buckets (spec section 4.4). -/

/-- A stake bucket row: half-open range `[min, max)`, `max = none` standing for
`Infinity`, with mutable `count`/`stake` tallies. -/
structure Bucket where
  label : String
  min : ℚ
  max : Option ℚ
  count : ℕ
  stake : ℚ
deriving DecidableEq, Repr

/-- The bucket test `s >= b.min && s < b.max`. -/
def bucketMatches (b : Bucket) (s : ℚ) : Bool :=
  decide (b.min ≤ s) &&
    (match b.max with
     | none => true
     | some mx => decide (s < mx))

/-- The inner bucket loop: first matching bucket gets the tally, then `break`. -/
def addToBuckets (s : ℚ) : List Bucket → List Bucket
  | [] => []
  | b :: rest =>
    if bucketMatches b s then { b with count := b.count + 1, stake := b.stake + s } :: rest
    else b :: addToBuckets s rest

/-- The outer bucket loop over a list of stake values. -/
def runBuckets (bs : List Bucket) (stakes : List ℚ) : List Bucket :=
  stakes.foldl (fun acc s => addToBuckets s acc) bs

/-- Bucket table of `analyzeStakeAccounts` (`collect-network.js` lines 377-384;
`collect-enhanced.js` lines 193-200 uses the same boundaries). -/
def analyzeBucketList : List Bucket :=
  [⟨"<1K SOL", 0, some 1000, 0, 0⟩,
   ⟨"1K-10K", 1000, some 10000, 0, 0⟩,
   ⟨"10K-50K", 10000, some 50000, 0, 0⟩,
   ⟨"50K-100K", 50000, some 100000, 0, 0⟩,
   ⟨"100K-500K", 100000, some 500000, 0, 0⟩,
   ⟨"500K+", 500000, none, 0, 0⟩]

/-- Bucket table of the network-wide collector (`collect-network.js` lines
153-161). -/
def networkBucketList : List Bucket :=
  [⟨"<10K", 0, some 10000, 0, 0⟩,
   ⟨"10K-50K", 10000, some 50000, 0, 0⟩,
   ⟨"50K-100K", 50000, some 100000, 0, 0⟩,
   ⟨"100K-500K", 100000, some 500000, 0, 0⟩,
   ⟨"500K-1M", 500000, some 1000000, 0, 0⟩,
   ⟨"1M-5M", 1000000, some 5000000, 0, 0⟩,
   ⟨"5M+", 5000000, none, 0, 0⟩]

/-- Sum of the `count` tallies of a bucket table. -/
def countsSum (bs : List Bucket) : ℕ := (bs.map (·.count)).sum

/-! Stake statistics and report records. -/

/-- The `stakeStats` record (`collect-network.js` lines 396-401,
`collect-enhanced.js` lines 226-231).  `mean = totalActive / count` is
unguarded JS division; the indexed accesses fall back to `0` via `|| 0`. -/
structure StakeStats where
  mean : JsNum
  median : ℚ
  max : ℚ
  min : ℚ
  p10 : ℚ
  p90 : ℚ
deriving DecidableEq, Repr

/-- Builds `stakeStats` from the active-stake list (descending). -/
def stakeStatsOf (totalActive : ℚ) (stakes : List ℚ) : StakeStats :=
  { mean := jsDiv totalActive (stakes.length : ℚ)
    median := stakes.getD (stakes.length / 2) 0
    max := stakes.getD 0 0
    min := stakes.getD (stakes.length - 1) 0
    p10 := stakes.getD (stakes.length / 10) 0
    p90 := stakes.getD (stakes.length * 9 / 10) 0 }

/-- The `decentralization` record of `analyzeStakeAccounts`. -/
structure DecentMetrics where
  nakamotoCoeff33 : ℕ
  superminorityCount : ℕ
  hhi : ℚ
  gini : JsNum
deriving DecidableEq, Repr

/-- A `topValidators` entry of `analyzeStakeAccounts`: `pctOfTotal` is the
numeric value of `((activeStake / totalActive) * 100).toFixed(2)`. -/
structure TopValidatorOut where
  voter : String
  activeStake : ℚ
  deactivatingStake : ℚ
  stakeAccounts : ℕ
  pctOfTotal : ℚ
deriving DecidableEq, Repr

/-- An `allValidators` entry of `analyzeStakeAccounts`. -/
structure SimpleValidator where
  voter : String
  activeStake : ℚ
  deactivatingStake : ℚ
  stakeAccounts : ℕ
deriving DecidableEq, Repr

/-- The value returned by `analyzeStakeAccounts`. -/
structure Analysis where
  totalAccounts : ℕ
  emptyAccounts : ℕ
  totalActive : ℚ
  totalDeactivating : ℚ
  uniqueValidators : ℕ
  activeValidators : ℕ
  decentralization : DecentMetrics
  stakeStats : StakeStats
  stakeBuckets : List Bucket
  topValidators : List TopValidatorOut
  allValidators : List SimpleValidator
deriving DecidableEq, Repr

/-- `analyzeStakeAccounts` (`collect-network.js` lines 289-432): aggregation
fold, descending sort, filter to `activeStake > 0`, then the concentration
metrics, statistics, buckets and validator listings. -/
def analyzeStakeAccounts (accounts : List StakeAccount) : Analysis :=
  let st := foldAccounts accounts
  let sortedValidators := sortByActiveDesc (st.validators.map Prod.snd)
  let activeValidators := sortedValidators.filter (fun v => 0 < v.activeStake)
  let activeStakes := activeValidators.map (·.activeStake)
  { totalAccounts := accounts.length
    emptyAccounts := st.totalEmpty
    totalActive := st.totalActive
    totalDeactivating := st.totalDeactivating
    uniqueValidators := st.validators.length
    activeValidators := activeValidators.length
    decentralization :=
      { nakamotoCoeff33 := nakamoto33 st.totalActive activeStakes
        superminorityCount := superminorityCount st.totalActive activeStakes
        hhi := hhi st.totalActive activeStakes
        gini := gini activeStakes }
    stakeStats := stakeStatsOf st.totalActive activeStakes
    stakeBuckets := runBuckets analyzeBucketList (activeValidators.map (·.activeStake))
    topValidators :=
      (sortedValidators.take 25).map (fun v =>
        ⟨v.voter, v.activeStake, v.deactivatingStake, v.stakeAccounts,
          toFixedVal 2 (v.activeStake / st.totalActive * 100)⟩)
    allValidators :=
      sortedValidators.map (fun v =>
        ⟨v.voter, v.activeStake, v.deactivatingStake, v.stakeAccounts⟩) }

/-! Extra per-authority metrics of `collect-enhanced.js` (lines 221-225). -/

/-- `topValidatorPct: stakes[0] ? (stakes[0] / totalActive * 100) : 0`. -/
def enhancedTopValidatorPct (totalActive : ℚ) (stakes : List ℚ) : ℚ :=
  match stakes with
  | [] => 0
  | s :: _ => if s = 0 then 0 else s / totalActive * 100

/-- `top10Pct: stakes.slice(0, 10).reduce((s, v) => s + v, 0) / totalActive *
100` — unguarded JS division (NaN when both are zero). -/
def enhancedTop10Pct (totalActive : ℚ) (stakes : List ℚ) : JsNum :=
  jsMul100 (jsDiv ((stakes.take 10).sum) totalActive)

/-! Dimensional breakdowns (spec section 4.4): the `sortObj` helper of both
files. -/

/-- A `{ count, stake }` tally accumulated per category key. -/
structure Tally where
  count : ℕ
  stake : ℚ
deriving DecidableEq, Repr

/-- One output row of `sortObj`: `pct` is the numeric value of the string
`(stake / totalActive * 100).toFixed(2)`. -/
structure SortObjEntry where
  name : String
  count : ℕ
  stake : ℚ
  pct : ℚ
deriving DecidableEq, Repr

/-- `sortObj` (`collect-enhanced.js` lines 188-190, `collect-network.js` lines
126-128): map the tally object to rows with a `toFixed(2)` percentage, then
sort descending by stake. -/
def sortObj (totalActive : ℚ) (obj : List (String × Tally)) : List SortObjEntry :=
  (obj.map (fun kv =>
      (⟨kv.1, kv.2.count, kv.2.stake, toFixedVal 2 (kv.2.stake / totalActive * 100)⟩ :
        SortObjEntry))).insertionSort
    (fun a b => b.stake ≤ a.stake)

/-! The network-wide pipeline of `collect-network.js` `main` (lines 45-166):
metrics are computed over the stakes of ALL validators (no activeStake > 0
filter). -/

/-- A validator row of the network-wide collector, reduced to the fields read
by the metric computations: `stake = v.activatedStake / 1e9`. -/
structure NetVal where
  voter : String
  stake : ℚ
deriving DecidableEq, Repr

/-- A vote account as returned by `getVoteAccounts`. -/
structure VoteAccount where
  votePubkey : String
  activatedStake : ℕ
deriving DecidableEq, Repr

/-- `allVals.sort((a, b) => b.stake - a.stake)` followed by
`stakes = allVals.map(v => v.stake)` (`collect-network.js` lines 49-83). -/
def networkAllStakes (voteAccounts : List VoteAccount) : List ℚ :=
  (((voteAccounts.map (fun v =>
        (⟨v.votePubkey, (v.activatedStake : ℚ) / 1000000000⟩ : NetVal)))).insertionSort
      (fun a b => b.stake ≤ a.stake)).map (·.stake)

/-- The network-wide Gini (`collect-network.js` lines 97-102), computed over
the stakes of all validators, zero-stake included. -/
def networkGini (voteAccounts : List VoteAccount) : JsNum :=
  gini (networkAllStakes voteAccounts)

/-- The network-wide bucket table (`collect-network.js` lines 162-166),
likewise over all validators. -/
def networkStakeBuckets (voteAccounts : List VoteAccount) : List Bucket :=
  runBuckets networkBucketList (networkAllStakes voteAccounts)

/-! The multi-source combiner (`collect-network.js` `collect`, lines 461-490). -/

/-- A combined per-identity aggregate (`allValidators[v.voter]` in `collect`):
`totalStake` sums `activeStake` across sources, `sources` records each
contribution. -/
structure CombinedValidator where
  voter : String
  totalStake : ℚ
  sources : List (String × ℚ)
deriving DecidableEq, Repr

/-- Folding one per-source validator row into the combined map
(`collect-network.js` lines 464-468). -/
def combineStep (key : String) (m : List (String × CombinedValidator))
    (v : SimpleValidator) : List (String × CombinedValidator) :=
  upsert v.voter ⟨v.voter, 0, []⟩
    (fun c =>
      { c with
        totalStake := c.totalStake + v.activeStake
        sources := setA key v.activeStake c.sources }) m

/-- The nested loop over `result.accounts` building the combined map. -/
def combineAll (sources : List (String × List SimpleValidator)) :
    List (String × CombinedValidator) :=
  sources.foldl (fun m kl => kl.2.foldl (combineStep kl.1) m) []

/-- `combinedTotal`: sum of `totalStake` over the combined map's values. -/
def combinedTotal (sources : List (String × List SimpleValidator)) : ℚ :=
  ((combineAll sources).map (fun p => p.2.totalStake)).sum

/-- `Object.values(allValidators).sort((a, b) => b.totalStake - a.totalStake)`. -/
def combinedSorted (sources : List (String × List SimpleValidator)) :
    List CombinedValidator :=
  ((combineAll sources).map Prod.snd).insertionSort (fun a b => b.totalStake ≤ a.totalStake)

/-- The combined Nakamoto loop (`collect-network.js` lines 473-478), written
over the sorted combined aggregates. -/
def combinedNakLoop (th : ℚ) : ℚ → List CombinedValidator → ℕ
  | _, [] => 0
  | run, v :: rest =>
    if th ≤ run + v.totalStake then 1 else 1 + combinedNakLoop th (run + v.totalStake) rest

/-- A `topValidators` entry of the combined section: `pctOfTotal` is the
numeric value of `((totalStake / combinedTotal) * 100).toFixed(2)`. -/
structure CombinedTopEntry where
  voter : String
  totalStake : ℚ
  sources : List (String × ℚ)
  pctOfTotal : ℚ
deriving DecidableEq, Repr

/-- The `result.combined` value (`collect-network.js` lines 480-490). -/
structure CombinedReport where
  totalActiveStake : ℚ
  uniqueValidators : ℕ
  nakamotoCoeff33 : ℕ
  topValidators : List CombinedTopEntry
deriving DecidableEq, Repr

/-- The combined section of `collect` (`collect-network.js` lines 461-490). -/
def collectCombined (sources : List (String × List SimpleValidator)) : CombinedReport :=
  let total := combinedTotal sources
  let sorted := combinedSorted sources
  { totalActiveStake := total
    uniqueValidators := sorted.length
    nakamotoCoeff33 := combinedNakLoop (total / 3) 0 sorted
    topValidators :=
      (sorted.take 25).map (fun v =>
        ⟨v.voter, v.totalStake, v.sources, toFixedVal 2 (v.totalStake / total * 100)⟩) }

/-- Total stake contributed to identity `k` across all sources: the sum, over
every source, of the active stakes of that source's rows for voter `k`. -/
def mergedContribution (sources : List (String × List SimpleValidator)) (k : String) : ℚ :=
  (sources.map (fun kl =>
    ((kl.2.filter (fun v => v.voter = k)).map (·.activeStake)).sum)).sum

/-! Association-list lemmas. -/

theorem getA_setA_self {β : Type} (k : String) (v : β) (m : List (String × β)) :
    getA k (setA k v m) = some v := by
  induction m with
  | nil => simp [getA, setA]
  | cons p rest ih =>
    by_cases h : p.1 = k
    · simp [setA, h, getA]
    · simp [setA, h, getA, ih]

theorem getA_setA_ne {β : Type} {k k' : String} (h : k' ≠ k) (v : β)
    (m : List (String × β)) : getA k (setA k' v m) = getA k m := by
  induction m with
  | nil => simp [getA, setA, h]
  | cons p rest ih =>
    by_cases hp : p.1 = k'
    · simp [setA, hp, getA, h, hp ▸ h]
    · simp only [setA, hp, if_neg]
      by_cases hk : p.1 = k
      · simp [getA, hk]
      · simp [getA, hk, ih]

theorem getA_upsert_self {β : Type} (k : String) (ini : β) (f : β → β)
    (m : List (String × β)) :
    getA k (upsert k ini f m) = some (f ((getA k m).getD ini)) := by
  simp [upsert, getA_setA_self]

theorem getA_upsert_ne {β : Type} {k k' : String} (h : k' ≠ k) (ini : β) (f : β → β)
    (m : List (String × β)) : getA k (upsert k' ini f m) = getA k m := by
  simp [upsert, getA_setA_ne h]


theorem mem_setA {β : Type} {k : String} {v : β} {m : List (String × β)} :
    ∀ p ∈ setA k v m, p = (k, v) ∨ p ∈ m := by
  induction m with
  | nil => simp [setA]
  | cons q rest ih =>
    intro p hp
    obtain ⟨q1, q2⟩ := q
    by_cases hq : q1 = k
    · simp only [setA, hq, if_pos] at hp
      rcases List.mem_cons.mp hp with h | h
      · exact Or.inl h
      · exact Or.inr (List.mem_cons_of_mem _ h)
    · simp only [setA] at hp
      rw [if_neg hq] at hp
      rcases List.mem_cons.mp hp with h | h
      · exact Or.inr (h ▸ List.mem_cons_self _ _)
      · rcases ih p h with h' | h'
        · exact Or.inl h'
        · exact Or.inr (List.mem_cons_of_mem _ h')

theorem getA_mem {β : Type} {k : String} {b : β} :
    ∀ {m : List (String × β)}, getA k m = some b → (k, b) ∈ m := by
  intro m
  induction m with
  | nil => simp [getA]
  | cons p rest ih =>
    intro h
    obtain ⟨p1, p2⟩ := p
    by_cases hp : p1 = k
    · simp only [getA, hp, if_pos] at h
      cases h
      subst hp
      exact List.mem_cons_self _ _
    · simp only [getA, hp, if_neg] at h
      exact List.mem_cons_of_mem _ (ih h)

/-- When the key is absent, assignment appends the entry at the end. -/
theorem setA_of_getA_none {β : Type} {k : String} {m : List (String × β)}
    (h : getA k m = none) (v : β) : setA k v m = m ++ [(k, v)] := by
  induction m with
  | nil => simp [setA]
  | cons p rest ih =>
    obtain ⟨p1, p2⟩ := p
    by_cases hp : p1 = k
    · simp [getA, hp] at h
    · simp only [getA, hp, if_neg] at h
      simp [setA, hp, ih h]

/-- Value-sum bookkeeping of in-place assignment at a present key. -/
theorem sum_setA_of_getA_some {β : Type} (g : β → ℚ) {k : String} {c : β}
    {m : List (String × β)} (h : getA k m = some c) (v : β) :
    ((setA k v m).map (fun p => g p.2)).sum + g c = ((m.map (fun p => g p.2)).sum) + g v := by
  induction m with
  | nil => simp [getA] at h
  | cons p rest ih =>
    obtain ⟨p1, p2⟩ := p
    by_cases hp : p1 = k
    · simp only [getA, hp, if_pos] at h
      cases h
      simp only [setA, hp, if_pos, List.map_cons, List.sum_cons]
      ring
    · simp only [getA] at h
      rw [if_neg hp] at h
      simp only [setA]
      rw [if_neg hp]
      simp only [List.map_cons, List.sum_cons]
      have := ih h
      linarith

/-- Characterization of a left fold of upserts: the entry at key `v` is
obtained by folding exactly the input elements whose key is `v`. -/
theorem getA_foldl_upsert {α β : Type} (key : α → String) (ini : String → β)
    (f : α → β → β) (v : String) :
    ∀ (l : List α) (m : List (String × β)),
      getA v (l.foldl (fun acc x => upsert (key x) (ini (key x)) (f x) acc) m) =
        (l.filter (fun x => key x = v)).foldl
          (fun ob x => some (f x (ob.getD (ini v)))) (getA v m) := by
  intro l
  induction l with
  | nil => intro m; rfl
  | cons x rest ih =>
    intro m
    by_cases h : key x = v
    · rw [List.foldl_cons, ih, List.filter_cons_of_pos (by simp [h]), List.foldl_cons]
      rw [h, getA_upsert_self]
    · rw [List.foldl_cons, ih, List.filter_cons_of_neg (by simp [h]),
        getA_upsert_ne h]

/-- Once the optional accumulator is `some`, the optional fold is a plain fold. -/
theorem foldl_some_collapse {α β : Type} (f : α → β → β) (ini : β) :
    ∀ (l : List α) (b : β),
      l.foldl (fun ob x => some (f x (ob.getD ini))) (some b) =
        some (l.foldl (fun b x => f x b) b) := by
  intro l
  induction l with
  | nil => intro b; rfl
  | cons x rest ih => intro b; simp [List.foldl_cons, ih]

/-! Nakamoto-loop lemmas (claim C1). -/

theorem nakLoop_le_length (th : ℚ) :
    ∀ (l : List ℚ) (run : ℚ), nakLoop th run l ≤ l.length := by
  intro l
  induction l with
  | nil => intro run; simp [nakLoop]
  | cons s rest ih =>
    intro run
    by_cases h : th ≤ run + s
    · simp [nakLoop, h]
    · simp only [nakLoop]
      rw [if_neg h]
      simp only [List.length_cons]
      have := ih (run + s)
      omega

theorem nakLoop_pos (th : ℚ) (run s : ℚ) (rest : List ℚ) :
    0 < nakLoop th run (s :: rest) := by
  by_cases h : th ≤ run + s <;> simp [nakLoop, h]

/-- The loop stops no later than the point where the cumulative sum reaches the
threshold: the consumed prefix itself reaches it. -/
theorem nakLoop_reaches (th : ℚ) :
    ∀ (l : List ℚ) (run : ℚ), th ≤ run + l.sum →
      th ≤ run + ((l.take (nakLoop th run l)).sum) := by
  intro l
  induction l with
  | nil => intro run h; simpa using h
  | cons s rest ih =>
    intro run h
    by_cases hb : th ≤ run + s
    · simp only [nakLoop]
      rw [if_pos hb]
      simpa using hb
    · simp only [nakLoop]
      rw [if_neg hb]
      have h' : th ≤ (run + s) + rest.sum := by
        simp only [List.sum_cons] at h
        linarith
      rw [Nat.add_comm 1 (nakLoop th (run + s) rest), List.take_succ_cons,
        List.sum_cons, ← add_assoc]
      exact ih (run + s) h'

/-- Every strictly shorter prefix stays strictly below the threshold. -/
theorem nakLoop_minimal (th : ℚ) :
    ∀ (l : List ℚ) (run : ℚ), run < th →
      ∀ j < nakLoop th run l, run + ((l.take j).sum) < th := by
  intro l
  induction l with
  | nil => intro run hrun j hj; simp [nakLoop] at hj
  | cons s rest ih =>
    intro run hrun j hj
    by_cases hb : th ≤ run + s
    · simp only [nakLoop] at hj
      rw [if_pos hb] at hj
      have hj0 : j = 0 := by omega
      subst hj0
      simpa using hrun
    · simp only [nakLoop] at hj
      rw [if_neg hb] at hj
      cases j with
      | zero => simpa using hrun
      | succ j' =>
        have hj' : j' < nakLoop th (run + s) rest := by omega
        have := ih (run + s) (by linarith) j' hj'
        rw [List.take_succ_cons, List.sum_cons, ← add_assoc]
        exact this

/-- Cumulative stake of the first `k` entries of a distribution. -/
def cumStake (l : List ℚ) (k : ℕ) : ℚ := (l.take k).sum

/-- C1: for every non-empty descending stake distribution whose total active
stake equals its sum, the computed Nakamoto coefficient `k` is the smallest
prefix count whose cumulative stake reaches one third of the total: `k` is at
most the number of entries, the cumulative stake of the first `k` entries is
at least `totalActiveStake / 3`, and the cumulative stake of the first `k - 1`
entries is strictly below `totalActiveStake / 3`. -/
theorem nakamoto33_smallest_third_reaching_count (l : List ℚ) (hne : l ≠ [])
    (hpos : ∀ s ∈ l, 0 < s) (hdesc : l.Sorted (fun a b => b ≤ a)) :
    nakamoto33 l.sum l ≤ l.length ∧
      l.sum / 3 ≤ cumStake l (nakamoto33 l.sum l) ∧
      cumStake l (nakamoto33 l.sum l - 1) < l.sum / 3 := by
  have hsum : 0 < l.sum := List.sum_pos l hpos hne
  refine ⟨nakLoop_le_length _ l 0, ?_, ?_⟩
  · have := nakLoop_reaches (l.sum / 3) l 0 (by linarith)
    simpa [nakamoto33, cumStake] using this
  · have hk : 0 < nakamoto33 l.sum l := by
      obtain ⟨s, rest, rfl⟩ := List.exists_cons_of_ne_nil hne
      exact nakLoop_pos _ 0 s rest
    have := nakLoop_minimal (l.sum / 3) l 0 (by linarith)
      (nakamoto33 l.sum l - 1)
      (by have hk' : nakamoto33 l.sum l = nakLoop (l.sum / 3) 0 l := rfl; omega)
    simpa [cumStake] using this

/-- Witness for C1 at the spec's example distribution `[600, 300, 100]`. -/
theorem nakamoto33_smallest_third_reaching_count_witness :
    (([600, 300, 100] : List ℚ) ≠ [] ∧ (∀ s ∈ ([600, 300, 100] : List ℚ), 0 < s) ∧
        ([600, 300, 100] : List ℚ).Sorted (fun a b => b ≤ a)) ∧
      (nakamoto33 ([600, 300, 100] : List ℚ).sum [600, 300, 100] ≤
          ([600, 300, 100] : List ℚ).length ∧
        ([600, 300, 100] : List ℚ).sum / 3 ≤
          cumStake [600, 300, 100] (nakamoto33 ([600, 300, 100] : List ℚ).sum [600, 300, 100]) ∧
        cumStake [600, 300, 100]
            (nakamoto33 ([600, 300, 100] : List ℚ).sum [600, 300, 100] - 1) <
          ([600, 300, 100] : List ℚ).sum / 3) :=
  ⟨⟨by decide, by decide, by decide⟩,
    nakamoto33_smallest_third_reaching_count [600, 300, 100] (by decide) (by decide) (by decide)⟩

/-! HHI lemmas (claim C6). -/

/-- C6 counterexample: with two equal positive stakes the computed HHI is
exactly 1/2, which does not lie in the claimed open-below interval (1/n, 1]
for n = 2. -/
theorem hhi_equal_stakes_not_in_open_interval :
    hhi 2 [1, 1] = 1 / 2 ∧ hhi 2 [1, 1] ∉ Set.Ioc ((1 : ℚ) / 2) 1 := by
  constructor
  · norm_num [hhi]
  · norm_num [hhi, Set.mem_Ioc]

/-- C6 amended: the computed HHI is invariant under permutation of the
validator order; a distribution of `n ≥ 1` validators with equal positive
stakes yields HHI exactly `1/n`, which lies in the closed interval
`[1/n, 1]`; a single validator holding all stake yields HHI = 1. -/
theorem hhi_perm_invariant_equal_stakes (n : ℕ) (s t : ℚ) (hn : 1 ≤ n) (hs : 0 < s) :
    (∀ l₁ l₂ : List ℚ, l₁.Perm l₂ → hhi t l₁ = hhi t l₂) ∧
      hhi ((n : ℚ) * s) (List.replicate n s) = 1 / n ∧
      (1 : ℚ) / n ∈ Set.Icc ((1 : ℚ) / n) 1 ∧
      hhi s [s] = 1 := by
  have hn0 : (0 : ℚ) < n := by exact_mod_cast hn
  have hne : (n : ℚ) ≠ 0 := ne_of_gt hn0
  refine ⟨fun l₁ l₂ h => (h.map _).sum_eq, ?_, ?_, ?_⟩
  · rw [hhi, List.map_replicate, List.sum_replicate, nsmul_eq_mul]
    rw [show s / ((n : ℚ) * s) = 1 / n from by
      rw [div_eq_div_iff (mul_ne_zero hne (ne_of_gt hs)) hne]; ring]
    field_simp
  · exact ⟨le_refl _, by rw [div_le_one hn0]; exact_mod_cast hn⟩
  · simp [hhi, div_self (ne_of_gt hs)]

/-- Witness for the amended C6 at `n = 2`, `s = 1`, `t = 7`. -/
theorem hhi_perm_invariant_equal_stakes_witness :
    ((1 : ℕ) ≤ 2 ∧ (0 : ℚ) < 1) ∧
      ((∀ l₁ l₂ : List ℚ, l₁.Perm l₂ → hhi 7 l₁ = hhi 7 l₂) ∧
        hhi (((2 : ℕ) : ℚ) * 1) (List.replicate 2 1) = 1 / ((2 : ℕ) : ℚ) ∧
        (1 : ℚ) / ((2 : ℕ) : ℚ) ∈ Set.Icc ((1 : ℚ) / ((2 : ℕ) : ℚ)) 1 ∧
        hhi 1 [1] = 1) :=
  ⟨⟨by norm_num, by norm_num⟩,
    hhi_perm_invariant_equal_stakes 2 1 7 (by norm_num) (by norm_num)⟩

/-! The active-stake distribution (claims C3, C9). -/

/-- The distribution the concentration metrics are computed from: descending
sort of the aggregates, filter to `activeStake > 0`, projection to the stake
values (the `stakes`/`activeStakes` array of both files). -/
def activeStakesOf (aggs : List ValidatorAgg) : List ℚ :=
  ((sortByActiveDesc aggs).filter (fun v => 0 < v.activeStake)).map (·.activeStake)

/-- Canonical form of the distribution: the descending sort of the positive
active stakes; in particular it depends only on the multiset of aggregates. -/
theorem activeStakesOf_eq_sortQDesc (aggs : List ValidatorAgg) :
    activeStakesOf aggs =
      sortQDesc ((aggs.filter (fun v => 0 < v.activeStake)).map (·.activeStake)) := by
  haveI : IsTotal ValidatorAgg (fun a b => b.activeStake ≤ a.activeStake) :=
    ⟨fun a b => le_total b.activeStake a.activeStake⟩
  haveI : IsTrans ValidatorAgg (fun a b => b.activeStake ≤ a.activeStake) :=
    ⟨fun a b c hab hbc => le_trans hbc hab⟩
  haveI : IsTotal ℚ (fun a b => b ≤ a) := ⟨fun a b => le_total b a⟩
  haveI : IsTrans ℚ (fun a b => b ≤ a) := ⟨fun a b c hab hbc => le_trans hbc hab⟩
  haveI : IsAntisymm ℚ (fun a b => b ≤ a) := ⟨fun a b h1 h2 => le_antisymm h2 h1⟩
  apply List.eq_of_perm_of_sorted (r := fun a b : ℚ => b ≤ a)
  · have p1 : (sortByActiveDesc aggs).Perm aggs := List.perm_insertionSort _ _
    have p2 := (p1.filter (fun v => decide (0 < v.activeStake))).map
      (fun v : ValidatorAgg => v.activeStake)
    exact p2.trans (List.perm_insertionSort _ _).symm
  · have s1 : List.Sorted (fun a b : ValidatorAgg => b.activeStake ≤ a.activeStake)
        (sortByActiveDesc aggs) := List.sorted_insertionSort _ _
    exact List.pairwise_map.mpr (s1.filter _)
  · exact List.sorted_insertionSort _ _

/-- C3 counterexample: in the network-wide pipeline of `collect-network.js`
`main`, the stakes array is not filtered, so adding a zero-stake validator
changes the computed Gini (here from 0 to 1/3) even though the claim says
zero-stake validators are excluded from every concentration metric. -/
theorem network_zero_stake_changes_gini :
    networkGini [⟨"A", 1000000000⟩, ⟨"B", 1000000000⟩, ⟨"C", 0⟩] = .fin (1 / 3) ∧
      networkGini [⟨"A", 1000000000⟩, ⟨"B", 1000000000⟩] = .fin 0 ∧
      networkGini [⟨"A", 1000000000⟩, ⟨"B", 1000000000⟩, ⟨"C", 0⟩] ≠
        networkGini [⟨"A", 1000000000⟩, ⟨"B", 1000000000⟩] := by
  have h1 : networkGini [⟨"A", 1000000000⟩, ⟨"B", 1000000000⟩, ⟨"C", 0⟩] = .fin (1 / 3) := by
    norm_num [networkGini, networkAllStakes, gini, sortAsc, giniNum, giniLoop, jsDiv,
      List.insertionSort, List.orderedInsert]
  have h2 : networkGini [⟨"A", 1000000000⟩, ⟨"B", 1000000000⟩] = .fin 0 := by
    norm_num [networkGini, networkAllStakes, gini, sortAsc, giniNum, giniLoop, jsDiv,
      List.insertionSort, List.orderedInsert]
  refine ⟨h1, h2, ?_⟩
  rw [h1, h2]
  simp only [ne_eq, JsNum.fin.injEq]
  norm_num

/-- C3 amended: in the per-authority analyses (`collect-enhanced.js` main and
`analyzeStakeAccounts`), a zero-stake validator is excluded from every
concentration metric — appending it to the aggregate list leaves the
distribution and every metric computed from it unchanged — while it is still
retained in the raw validator count and the sorted listing.  (The
network-wide metrics of `collect-network.js` `main` instead include
zero-stake validators; see the counterexample.) -/
theorem zero_stake_excluded_per_authority (t : ℚ) (aggs : List ValidatorAgg)
    (z : ValidatorAgg) (hz : z.activeStake = 0) :
    activeStakesOf (aggs ++ [z]) = activeStakesOf aggs ∧
      nakamoto33 t (activeStakesOf (aggs ++ [z])) = nakamoto33 t (activeStakesOf aggs) ∧
      superminorityCount t (activeStakesOf (aggs ++ [z])) =
        superminorityCount t (activeStakesOf aggs) ∧
      hhi t (activeStakesOf (aggs ++ [z])) = hhi t (activeStakesOf aggs) ∧
      gini (activeStakesOf (aggs ++ [z])) = gini (activeStakesOf aggs) ∧
      enhancedTopValidatorPct t (activeStakesOf (aggs ++ [z])) =
        enhancedTopValidatorPct t (activeStakesOf aggs) ∧
      enhancedTop10Pct t (activeStakesOf (aggs ++ [z])) =
        enhancedTop10Pct t (activeStakesOf aggs) ∧
      (sortByActiveDesc (aggs ++ [z])).length = (sortByActiveDesc aggs).length + 1 ∧
      z ∈ sortByActiveDesc (aggs ++ [z]) := by
  have key : activeStakesOf (aggs ++ [z]) = activeStakesOf aggs := by
    rw [activeStakesOf_eq_sortQDesc, activeStakesOf_eq_sortQDesc, List.filter_append]
    simp [hz]
  refine ⟨key, by rw [key], by rw [key], by rw [key], by rw [key], by rw [key],
    by rw [key], ?_, ?_⟩
  · simp [sortByActiveDesc, List.length_insertionSort]
  · have hperm : (sortByActiveDesc (aggs ++ [z])).Perm (aggs ++ [z]) :=
      List.perm_insertionSort _ _
    exact hperm.mem_iff.mpr (List.mem_append_right _ (List.mem_singleton_self z))

/-- Witness for the amended C3: a zero-stake aggregate appended to the empty
aggregate list. -/
theorem zero_stake_excluded_per_authority_witness :
    (zeroAgg "Z").activeStake = 0 ∧
      (activeStakesOf ([] ++ [zeroAgg "Z"]) = activeStakesOf [] ∧
        nakamoto33 5 (activeStakesOf ([] ++ [zeroAgg "Z"])) =
          nakamoto33 5 (activeStakesOf []) ∧
        superminorityCount 5 (activeStakesOf ([] ++ [zeroAgg "Z"])) =
          superminorityCount 5 (activeStakesOf []) ∧
        hhi 5 (activeStakesOf ([] ++ [zeroAgg "Z"])) = hhi 5 (activeStakesOf []) ∧
        gini (activeStakesOf ([] ++ [zeroAgg "Z"])) = gini (activeStakesOf []) ∧
        enhancedTopValidatorPct 5 (activeStakesOf ([] ++ [zeroAgg "Z"])) =
          enhancedTopValidatorPct 5 (activeStakesOf []) ∧
        enhancedTop10Pct 5 (activeStakesOf ([] ++ [zeroAgg "Z"])) =
          enhancedTop10Pct 5 (activeStakesOf []) ∧
        (sortByActiveDesc ([] ++ [zeroAgg "Z"])).length =
          (sortByActiveDesc []).length + 1 ∧
        zeroAgg "Z" ∈ sortByActiveDesc ([] ++ [zeroAgg "Z"])) :=
  ⟨rfl, zero_stake_excluded_per_authority 5 [] (zeroAgg "Z") rfl⟩

/-! Gini lemmas (claim C7). -/

/-- The Gini index-loop as a closed sum over positions. -/
theorem giniLoop_eq_sum (n : ℚ) :
    ∀ (l : List ℚ) (i : ℕ),
      giniLoop n i l =
        ∑ j in Finset.range l.length,
          (2 * (((i + j : ℕ) : ℚ) + 1) - n - 1) * l.getD j 0 := by
  intro l
  induction l with
  | nil => intro i; simp [giniLoop]
  | cons a rest ih =>
    intro i
    have hl : giniLoop n i (a :: rest) =
        (2 * ((i : ℚ) + 1) - n - 1) * a + giniLoop n (i + 1) rest := rfl
    rw [hl, ih (i + 1), List.length_cons, Finset.sum_range_succ']
    have he : ∀ j ∈ Finset.range rest.length,
        (2 * (((i + (j + 1) : ℕ) : ℚ) + 1) - n - 1) * ((a :: rest).getD (j + 1) 0) =
          (2 * ((((i + 1) + j : ℕ) : ℚ) + 1) - n - 1) * (rest.getD j 0) := by
      intro j _
      rw [List.getD_cons_succ]
      push_cast
      ring
    rw [Finset.sum_congr rfl he, List.getD_cons_zero]
    push_cast
    ring

/-- The Gini coefficient row `2*(j+1) - n - 1` sums to zero over `j < n`. -/
theorem gini_coeff_sum_zero (n : ℕ) :
    ∑ j in Finset.range n, (2 * ((j : ℚ) + 1) - n - 1) = 0 := by
  have h1 : ∑ j in Finset.range n, ((j : ℚ) + 1) = n * (n + 1) / 2 := by
    induction n with
    | zero => simp
    | succ m ih =>
      rw [Finset.sum_range_succ, ih]
      push_cast
      ring
  have h2 : ∑ j in Finset.range n, (2 * ((j : ℚ) + 1) - n - 1) =
      (∑ j in Finset.range n, 2 * ((j : ℚ) + 1)) -
        (∑ _j in Finset.range n, ((n : ℚ) + 1)) := by
    rw [← Finset.sum_sub_distrib]
    apply Finset.sum_congr rfl
    intro j _
    ring
  rw [h2, ← Finset.mul_sum, h1, Finset.sum_const, Finset.card_range, nsmul_eq_mul]
  ring

/-- C7: for every non-empty positive stake distribution, the computed Gini
coefficient equals the standard discrete formula over the independently
re-sorted ascending list `a[0..n-1]`:
`gini = (Σ_j (2*(j+1) - n - 1) * a[j]) / (n * Σ a)`; and whenever all stakes
are equal the computed Gini is 0. -/
theorem gini_standard_formula (stakes : List ℚ) (c : ℚ) (hne : stakes ≠ [])
    (hpos : ∀ s ∈ stakes, 0 < s) :
    gini stakes =
      .fin ((∑ j in Finset.range stakes.length,
          (2 * ((j : ℚ) + 1) - stakes.length - 1) * ((sortAsc stakes).getD j 0)) /
        ((stakes.length : ℚ) * stakes.sum)) ∧
      ((∀ x ∈ stakes, x = c) → gini stakes = .fin 0) := by
  have hperm : (sortAsc stakes).Perm stakes := List.perm_insertionSort _ _
  have hsum : (sortAsc stakes).sum = stakes.sum := hperm.sum_eq
  have hlen : (sortAsc stakes).length = stakes.length := List.length_insertionSort _ _
  have hn : 0 < stakes.length := List.length_pos.mpr hne
  have hpos' : 0 < stakes.sum := List.sum_pos stakes hpos hne
  have hden : ¬ ((stakes.length : ℚ) * (sortAsc stakes).sum = 0) := by
    rw [hsum]
    exact ne_of_gt (mul_pos (by exact_mod_cast hn) hpos')
  have hopen : gini stakes =
      .fin (giniNum (sortAsc stakes) / ((stakes.length : ℚ) * (sortAsc stakes).sum)) := by
    simp only [gini]
    rw [if_pos hn, jsDiv, if_neg hden]
  constructor
  · rw [hopen, hsum]
    congr 1
    rw [giniNum, giniLoop_eq_sum, hlen]
    simp only [Nat.zero_add]
  · intro hall
    have hasc_all : ∀ x ∈ sortAsc stakes, x = c := fun x hx => hall x (hperm.subset hx)
    have hnum : giniNum (sortAsc stakes) = 0 := by
      rw [giniNum, giniLoop_eq_sum]
      have hc : ∀ j ∈ Finset.range (sortAsc stakes).length,
          (2 * (((0 + j : ℕ) : ℚ) + 1) - ((sortAsc stakes).length : ℚ) - 1) *
              ((sortAsc stakes).getD j 0) =
            (2 * ((j : ℚ) + 1) - ((sortAsc stakes).length : ℚ) - 1) * c := by
        intro j hj
        rw [Finset.mem_range] at hj
        have hx : (sortAsc stakes).getD j 0 = c := by
          rw [List.getD_eq_getElem _ _ hj]
          exact hasc_all _ (List.getElem_mem hj)
        rw [hx]
        norm_num
      rw [Finset.sum_congr rfl hc, ← Finset.sum_mul, gini_coeff_sum_zero, zero_mul]
    rw [hopen, hnum, zero_div]

/-- Witness for C7 at the equal-stake distribution `[2, 2]`. -/
theorem gini_standard_formula_witness :
    (([2, 2] : List ℚ) ≠ [] ∧ (∀ s ∈ ([2, 2] : List ℚ), 0 < s)) ∧
      (gini [2, 2] =
          .fin ((∑ j in Finset.range ([2, 2] : List ℚ).length,
              (2 * ((j : ℚ) + 1) - ([2, 2] : List ℚ).length - 1) *
                ((sortAsc [2, 2]).getD j 0)) /
            ((([2, 2] : List ℚ).length : ℚ) * ([2, 2] : List ℚ).sum)) ∧
        ((∀ x ∈ ([2, 2] : List ℚ), x = 2) → gini [2, 2] = .fin 0)) :=
  ⟨⟨by decide, by decide⟩, gini_standard_formula [2, 2] 2 (by decide) (by decide)⟩

/-! Empty-input behavior (claim C2). -/

/-- C2 counterexample: on an empty delegation list the mean stake is computed
by the unguarded JS division `totalActive / activeValidators.length = 0/0`,
which is NaN — neither 0 nor null — so not every metric of the report degrades
to 0 or null. -/
theorem empty_mean_is_nan :
    (analyzeStakeAccounts []).stakeStats.mean = JsNum.nan ∧ JsNum.nan ≠ JsNum.fin 0 :=
  ⟨rfl, by decide⟩

/-- C2 amended: an empty delegation list raises nothing and yields
`activeValidators = 0`, with every guarded metric equal to 0 (Nakamoto,
superminority, HHI, Gini, median, max, min, percentiles, and
`topValidatorPct`), but the unguarded divisions — mean and `top10Pct` —
evaluate to NaN (JavaScript `0/0`) rather than 0 or null.  (NaN serializes to
null in the JSON report the callers write.) -/
theorem analyze_empty_report :
    analyzeStakeAccounts [] =
      { totalAccounts := 0
        emptyAccounts := 0
        totalActive := 0
        totalDeactivating := 0
        uniqueValidators := 0
        activeValidators := 0
        decentralization :=
          { nakamotoCoeff33 := 0, superminorityCount := 0, hhi := 0, gini := .fin 0 }
        stakeStats := { mean := .nan, median := 0, max := 0, min := 0, p10 := 0, p90 := 0 }
        stakeBuckets := analyzeBucketList
        topValidators := []
        allValidators := [] } ∧
      enhancedTopValidatorPct 0 [] = 0 ∧
      enhancedTop10Pct 0 [] = JsNum.nan :=
  ⟨rfl, rfl, rfl⟩

/-! Stake-bucket lemmas (claim C9). -/

/-- The bucket test depends only on the `[min, max)` bounds. -/
def boundsMatch (p : ℚ × Option ℚ) (s : ℚ) : Bool :=
  decide (p.1 ≤ s) &&
    (match p.2 with
     | none => true
     | some mx => decide (s < mx))

theorem bucketMatches_eq_boundsMatch (b : Bucket) (s : ℚ) :
    bucketMatches b s = boundsMatch (b.min, b.max) s := rfl

/-- Every nonnegative stake matches exactly one bucket of the
`analyzeStakeAccounts` bucket table. -/
theorem analyzeBucketList_countP_one (s : ℚ) (hs : 0 ≤ s) :
    analyzeBucketList.countP (fun b => bucketMatches b s) = 1 := by
  rcases lt_or_le s 1000 with h1 | h1
  · have n1 : ¬ (1000 : ℚ) ≤ s := not_le.mpr h1
    have n2 : ¬ (10000 : ℚ) ≤ s := not_le.mpr (h1.trans (by norm_num))
    have n3 : ¬ (50000 : ℚ) ≤ s := not_le.mpr (h1.trans (by norm_num))
    have n4 : ¬ (100000 : ℚ) ≤ s := not_le.mpr (h1.trans (by norm_num))
    have n5 : ¬ (500000 : ℚ) ≤ s := not_le.mpr (h1.trans (by norm_num))
    simp [analyzeBucketList, List.countP_cons, bucketMatches, hs, h1, n1, n2, n3, n4, n5]
  rcases lt_or_le s 10000 with h2 | h2
  · have m1 : ¬ s < 1000 := not_lt.mpr h1
    have n2 : ¬ (10000 : ℚ) ≤ s := not_le.mpr h2
    have n3 : ¬ (50000 : ℚ) ≤ s := not_le.mpr (h2.trans (by norm_num))
    have n4 : ¬ (100000 : ℚ) ≤ s := not_le.mpr (h2.trans (by norm_num))
    have n5 : ¬ (500000 : ℚ) ≤ s := not_le.mpr (h2.trans (by norm_num))
    simp [analyzeBucketList, List.countP_cons, bucketMatches, h1, h2, m1, n2, n3, n4, n5]
  rcases lt_or_le s 50000 with h3 | h3
  · have m1 : ¬ s < 1000 := not_lt.mpr ((by norm_num : (1000 : ℚ) ≤ 10000).trans h2)
    have m2 : ¬ s < 10000 := not_lt.mpr h2
    have n3 : ¬ (50000 : ℚ) ≤ s := not_le.mpr h3
    have n4 : ¬ (100000 : ℚ) ≤ s := not_le.mpr (h3.trans (by norm_num))
    have n5 : ¬ (500000 : ℚ) ≤ s := not_le.mpr (h3.trans (by norm_num))
    simp [analyzeBucketList, List.countP_cons, bucketMatches, h2, h3, m1, m2, n3, n4, n5]
  rcases lt_or_le s 100000 with h4 | h4
  · have m1 : ¬ s < 1000 := not_lt.mpr ((by norm_num : (1000 : ℚ) ≤ 50000).trans h3)
    have m2 : ¬ s < 10000 := not_lt.mpr ((by norm_num : (10000 : ℚ) ≤ 50000).trans h3)
    have m3 : ¬ s < 50000 := not_lt.mpr h3
    have n4 : ¬ (100000 : ℚ) ≤ s := not_le.mpr h4
    have n5 : ¬ (500000 : ℚ) ≤ s := not_le.mpr (h4.trans (by norm_num))
    simp [analyzeBucketList, List.countP_cons, bucketMatches, h3, h4, m1, m2, m3, n4, n5]
  rcases lt_or_le s 500000 with h5 | h5
  · have m1 : ¬ s < 1000 := not_lt.mpr ((by norm_num : (1000 : ℚ) ≤ 100000).trans h4)
    have m2 : ¬ s < 10000 := not_lt.mpr ((by norm_num : (10000 : ℚ) ≤ 100000).trans h4)
    have m3 : ¬ s < 50000 := not_lt.mpr ((by norm_num : (50000 : ℚ) ≤ 100000).trans h4)
    have m4 : ¬ s < 100000 := not_lt.mpr h4
    have n5 : ¬ (500000 : ℚ) ≤ s := not_le.mpr h5
    simp [analyzeBucketList, List.countP_cons, bucketMatches, h4, h5, m1, m2, m3, m4, n5]
  · have m1 : ¬ s < 1000 := not_lt.mpr ((by norm_num : (1000 : ℚ) ≤ 500000).trans h5)
    have m2 : ¬ s < 10000 := not_lt.mpr ((by norm_num : (10000 : ℚ) ≤ 500000).trans h5)
    have m3 : ¬ s < 50000 := not_lt.mpr ((by norm_num : (50000 : ℚ) ≤ 500000).trans h5)
    have m4 : ¬ s < 100000 := not_lt.mpr ((by norm_num : (100000 : ℚ) ≤ 500000).trans h5)
    have m5 : ¬ s < 500000 := not_lt.mpr h5
    simp [analyzeBucketList, List.countP_cons, bucketMatches, h5, m1, m2, m3, m4, m5]

/-- Tallying a stake does not change the bucket boundaries. -/
theorem addToBuckets_bounds (s : ℚ) :
    ∀ bs : List Bucket,
      (addToBuckets s bs).map (fun b => (b.min, b.max)) =
        bs.map (fun b => (b.min, b.max)) := by
  intro bs
  induction bs with
  | nil => rfl
  | cons b rest ih =>
    by_cases h : bucketMatches b s = true
    · simp [addToBuckets, h]
    · simp only [Bool.not_eq_true] at h
      simp [addToBuckets, h, ih]

/-- When some bucket matches, the inner loop increments exactly one count. -/
theorem countsSum_addToBuckets (s : ℚ) :
    ∀ bs : List Bucket, (∃ b ∈ bs, bucketMatches b s = true) →
      countsSum (addToBuckets s bs) = countsSum bs + 1 := by
  intro bs
  induction bs with
  | nil => intro h; simp at h
  | cons b rest ih =>
    intro h
    by_cases hb : bucketMatches b s = true
    · simp only [addToBuckets, hb, if_pos, countsSum, List.map_cons, List.sum_cons]
      omega
    · have h' : ∃ b' ∈ rest, bucketMatches b' s = true := by
        rcases h with ⟨b', hb', hm⟩
        rcases List.mem_cons.mp hb' with rfl | hmem
        · exact absurd hm hb
        · exact ⟨b', hmem, hm⟩
      simp only [Bool.not_eq_true] at hb
      simp only [addToBuckets, hb, Bool.false_eq_true, if_false, countsSum,
        List.map_cons, List.sum_cons]
      have := ih h'
      simp only [countsSum] at this
      omega

/-- Folding nonnegative stakes through a table with the `analyzeStakeAccounts`
boundaries adds exactly one count per stake. -/
theorem countsSum_runBuckets :
    ∀ (stakes : List ℚ) (bs : List Bucket),
      bs.map (fun b => (b.min, b.max)) =
        analyzeBucketList.map (fun b => (b.min, b.max)) →
      (∀ s ∈ stakes, 0 ≤ s) →
      countsSum (runBuckets bs stakes) = countsSum bs + stakes.length := by
  intro stakes
  induction stakes with
  | nil => intro bs hbounds hpos; simp [runBuckets, countsSum]
  | cons s rest ih =>
    intro bs hbounds hpos
    have hs : 0 ≤ s := hpos s (List.mem_cons_self _ _)
    have hex : ∃ b ∈ bs, bucketMatches b s = true := by
      have h1 : 0 < analyzeBucketList.countP (fun b => bucketMatches b s) := by
        rw [analyzeBucketList_countP_one s hs]
        norm_num
      rcases List.countP_pos_iff.mp h1 with ⟨b, hbmem, hbm⟩
      have hmm : (b.min, b.max) ∈ bs.map (fun b => (b.min, b.max)) := by
        rw [hbounds]
        exact List.mem_map_of_mem _ hbmem
      rcases List.mem_map.mp hmm with ⟨b', hb'mem, hbeq⟩
      refine ⟨b', hb'mem, ?_⟩
      rw [bucketMatches_eq_boundsMatch, hbeq, ← bucketMatches_eq_boundsMatch]
      exact hbm
    have hstep : runBuckets bs (s :: rest) = runBuckets (addToBuckets s bs) rest := rfl
    rw [hstep, ih (addToBuckets s bs)
      (by rw [addToBuckets_bounds]; exact hbounds)
      (fun x hx => hpos x (List.mem_cons_of_mem _ hx))]
    rw [countsSum_addToBuckets s bs hex, List.length_cons]
    omega

/-- C9 counterexample: in the network-wide bucketing of `collect-network.js`
`main`, a validator with zero activated stake is placed in the first bucket,
so the bucket counts sum to 1 while the number of validators with positive
stake is 0 — the counts do not sum to the `activeStake > 0` validator count. -/
theorem network_buckets_count_zero_stake :
    countsSum (networkStakeBuckets [⟨"A", 0⟩]) = 1 ∧
      (networkAllStakes [⟨"A", 0⟩]).countP (fun s => 0 < s) = 0 := by
  constructor
  · norm_num [networkStakeBuckets, networkAllStakes, runBuckets, addToBuckets, bucketMatches,
      networkBucketList, countsSum, List.insertionSort, List.orderedInsert]
  · norm_num [networkAllStakes, List.insertionSort, List.orderedInsert, List.countP_cons,
      List.countP_nil]

/-- C9 amended: every positive stake matches exactly one bucket of the
half-open ascending ranges (first match wins), and in `analyzeStakeAccounts`
(and the identical bucketing of `collect-enhanced.js`, which runs over the
`activeStake > 0` validators) the bucket counts sum to the number of
validators with positive active stake.  (The network-wide bucketing of
`collect-network.js` `main` instead buckets every validator, zero-stake
included; see the counterexample.) -/
theorem bucket_partition_analyze (accounts : List StakeAccount) (s : ℚ) (hs : 0 < s) :
    analyzeBucketList.countP (fun b => bucketMatches b s) = 1 ∧
      countsSum (analyzeStakeAccounts accounts).stakeBuckets =
        (analyzeStakeAccounts accounts).activeValidators := by
  refine ⟨analyzeBucketList_countP_one s (le_of_lt hs), ?_⟩
  have hb : (analyzeStakeAccounts accounts).stakeBuckets =
      runBuckets analyzeBucketList
        (activeStakesOf ((foldAccounts accounts).validators.map Prod.snd)) := rfl
  have ha : (analyzeStakeAccounts accounts).activeValidators =
      (activeStakesOf ((foldAccounts accounts).validators.map Prod.snd)).length := by
    rw [activeStakesOf, List.length_map]
    rfl
  have hpos : ∀ x ∈ activeStakesOf ((foldAccounts accounts).validators.map Prod.snd),
      (0 : ℚ) ≤ x := by
    intro x hx
    rcases List.mem_map.mp hx with ⟨v, hv, rfl⟩
    have h2 := (List.mem_filter.mp hv).2
    simp only [decide_eq_true_eq] at h2
    exact le_of_lt h2
  rw [hb, ha, countsSum_runBuckets _ analyzeBucketList rfl hpos]
  simp [countsSum, analyzeBucketList]

/-- Witness for the amended C9 at the empty account list and stake 5. -/
theorem bucket_partition_analyze_witness :
    (0 : ℚ) < 5 ∧
      (analyzeBucketList.countP (fun b => bucketMatches b 5) = 1 ∧
        countsSum (analyzeStakeAccounts []).stakeBuckets =
          (analyzeStakeAccounts []).activeValidators) :=
  ⟨by norm_num, bucket_partition_analyze [] 5 (by norm_num)⟩

/-! Aggregation-fold invariants (claims C8, C10). -/

/-- Invariant of the aggregation loop state: every aggregate splits its total
stake into active plus deactivating and counts one activation epoch per
account, and the running totals are the sums over the aggregates. -/
def stateInv (st : FoldState) : Prop :=
  (∀ p ∈ st.validators,
      p.2.totalStake = p.2.activeStake + p.2.deactivatingStake ∧
        p.2.stakeAccounts = p.2.activationEpochs.length) ∧
    st.totalActive = (st.validators.map (fun p => p.2.activeStake)).sum ∧
    st.totalDeactivating = (st.validators.map (fun p => p.2.deactivatingStake)).sum

theorem stateInv_foldStep {st : FoldState} (h : stateInv st) (a : StakeAccount) :
    stateInv (foldStep st a) := by
  obtain ⟨hmem, hact, hdea⟩ := h
  cases ha : a.delegation with
  | none =>
    refine ⟨?_, ?_, ?_⟩
    · intro p hp
      exact hmem p (by simpa [foldStep, ha] using hp)
    · simpa [foldStep, ha] using hact
    · simpa [foldStep, ha] using hdea
  | some d =>
    set k := d.voter with hk
    set cur := (getA k st.validators).getD (zeroAgg k) with hcur
    have hval : (foldStep st a).validators = setA k (applyDel d cur) st.validators := by
      simp only [foldStep, ha]
      rw [upsert, ← hcur]
    have hta : (foldStep st a).totalActive =
        st.totalActive + (if d.deactivating then 0 else d.solStake) := by
      cases hd : d.deactivating <;> simp [foldStep, ha, hd]
    have htd : (foldStep st a).totalDeactivating =
        st.totalDeactivating + (if d.deactivating then d.solStake else 0) := by
      cases hd : d.deactivating <;> simp [foldStep, ha, hd]
    have hnew_act : (applyDel d cur).activeStake =
        cur.activeStake + (if d.deactivating then 0 else d.solStake) := by
      cases hd : d.deactivating <;> simp [applyDel, hd]
    have hnew_dea : (applyDel d cur).deactivatingStake =
        cur.deactivatingStake + (if d.deactivating then d.solStake else 0) := by
      cases hd : d.deactivating <;> simp [applyDel, hd]
    have hcur_inv : cur.totalStake = cur.activeStake + cur.deactivatingStake ∧
        cur.stakeAccounts = cur.activationEpochs.length := by
      cases hg : getA k st.validators with
      | none => simp [hcur, hg, zeroAgg]
      | some c =>
        have hmemc := hmem (k, c) (getA_mem hg)
        simpa [hcur, hg] using hmemc
    have hnew_inv : (applyDel d cur).totalStake =
        (applyDel d cur).activeStake + (applyDel d cur).deactivatingStake ∧
        (applyDel d cur).stakeAccounts = (applyDel d cur).activationEpochs.length := by
      obtain ⟨hc1, hc2⟩ := hcur_inv
      constructor
      · rw [hnew_act, hnew_dea]
        have ht : (applyDel d cur).totalStake = cur.totalStake + d.solStake := rfl
        rw [ht, hc1]
        cases hd : d.deactivating <;> simp <;> ring
      · simp [applyDel, hc2]
    refine ⟨?_, ?_, ?_⟩
    · intro p hp
      rw [hval] at hp
      rcases mem_setA p hp with rfl | hpm
      · exact hnew_inv
      · exact hmem p hpm
    · rw [hval, hta]
      cases hg : getA k st.validators with
      | none =>
        have hz : cur.activeStake = 0 := by
          rw [hcur, hg]
          rfl
        rw [setA_of_getA_none hg, List.map_append, List.sum_append]
        simp only [List.map_cons, List.map_nil, List.sum_cons, List.sum_nil, add_zero]
        rw [hact]
        linarith [hnew_act]
      | some c =>
        have hc : cur = c := by
          rw [hcur, hg]
          rfl
        have hsum := sum_setA_of_getA_some (fun b => b.activeStake) hg (applyDel d cur)
        rw [← hc] at hsum
        rw [hact]
        linarith [hnew_act]
    · rw [hval, htd]
      cases hg : getA k st.validators with
      | none =>
        have hz : cur.deactivatingStake = 0 := by
          rw [hcur, hg]
          rfl
        rw [setA_of_getA_none hg, List.map_append, List.sum_append]
        simp only [List.map_cons, List.map_nil, List.sum_cons, List.sum_nil, add_zero]
        rw [hdea]
        linarith [hnew_dea]
      | some c =>
        have hc : cur = c := by
          rw [hcur, hg]
          rfl
        have hsum := sum_setA_of_getA_some (fun b => b.deactivatingStake) hg (applyDel d cur)
        rw [← hc] at hsum
        rw [hdea]
        linarith [hnew_dea]

theorem stateInv_foldAccounts (l : List StakeAccount) : stateInv (foldAccounts l) := by
  have hgen : ∀ (l : List StakeAccount) (st : FoldState),
      stateInv st → stateInv (l.foldl foldStep st) := by
    intro l
    induction l with
    | nil => intro st h; exact h
    | cons a rest ih =>
      intro st h
      rw [List.foldl_cons]
      exact ih _ (stateInv_foldStep h a)
  exact hgen l _ ⟨by simp, by simp, by simp⟩

/-- C10: after folding any prefix of the input delegation records, every
validator aggregate satisfies `totalStake = activeStake + deactivatingStake`
and `stakeAccounts = activationEpochs.length`, and the running totals are the
sums of the per-aggregate active and deactivating stakes; consequently the
returned analysis satisfies the same totals over its validator listing. -/
theorem fold_prefix_invariants (accounts : List StakeAccount) (n : ℕ) :
    (∀ p ∈ (foldAccounts (accounts.take n)).validators,
        p.2.totalStake = p.2.activeStake + p.2.deactivatingStake ∧
          p.2.stakeAccounts = p.2.activationEpochs.length) ∧
      (foldAccounts (accounts.take n)).totalActive =
        ((foldAccounts (accounts.take n)).validators.map (fun p => p.2.activeStake)).sum ∧
      (foldAccounts (accounts.take n)).totalDeactivating =
        ((foldAccounts (accounts.take n)).validators.map
          (fun p => p.2.deactivatingStake)).sum ∧
      (analyzeStakeAccounts accounts).totalActive =
        ((analyzeStakeAccounts accounts).allValidators.map (fun w => w.activeStake)).sum ∧
      (analyzeStakeAccounts accounts).totalDeactivating =
        ((analyzeStakeAccounts accounts).allValidators.map
          (fun w => w.deactivatingStake)).sum := by
  obtain ⟨h1, h2, h3⟩ := stateInv_foldAccounts (accounts.take n)
  obtain ⟨g1, g2, g3⟩ := stateInv_foldAccounts accounts
  have hperm : (sortByActiveDesc ((foldAccounts accounts).validators.map Prod.snd)).Perm
      ((foldAccounts accounts).validators.map Prod.snd) := List.perm_insertionSort _ _
  refine ⟨h1, h2, h3, ?_, ?_⟩
  · have e1 : (analyzeStakeAccounts accounts).totalActive =
        (foldAccounts accounts).totalActive := rfl
    have e2 : (analyzeStakeAccounts accounts).allValidators.map (fun w => w.activeStake) =
        (sortByActiveDesc ((foldAccounts accounts).validators.map Prod.snd)).map
          (fun v => v.activeStake) := by
      have e0 : (analyzeStakeAccounts accounts).allValidators =
          (sortByActiveDesc ((foldAccounts accounts).validators.map Prod.snd)).map
            (fun v =>
              (⟨v.voter, v.activeStake, v.deactivatingStake, v.stakeAccounts⟩ :
                SimpleValidator)) := rfl
      rw [e0, List.map_map]
      rfl
    rw [e1, e2, g2, (hperm.map (fun v : ValidatorAgg => v.activeStake)).sum_eq,
      List.map_map]
    rfl
  · have e1 : (analyzeStakeAccounts accounts).totalDeactivating =
        (foldAccounts accounts).totalDeactivating := rfl
    have e2 : (analyzeStakeAccounts accounts).allValidators.map
        (fun w => w.deactivatingStake) =
        (sortByActiveDesc ((foldAccounts accounts).validators.map Prod.snd)).map
          (fun v => v.deactivatingStake) := by
      have e0 : (analyzeStakeAccounts accounts).allValidators =
          (sortByActiveDesc ((foldAccounts accounts).validators.map Prod.snd)).map
            (fun v =>
              (⟨v.voter, v.activeStake, v.deactivatingStake, v.stakeAccounts⟩ :
                SimpleValidator)) := rfl
      rw [e0, List.map_map]
      rfl
    rw [e1, e2, g3, (hperm.map (fun v : ValidatorAgg => v.deactivatingStake)).sum_eq,
      List.map_map]
    rfl

/-- The `validators` object of the aggregation loop is the fold of the parsed
delegations through `upsert`; accounts without a delegation are skipped. -/
theorem validators_foldl_foldStep :
    ∀ (l : List StakeAccount) (st : FoldState),
      (l.foldl foldStep st).validators =
        (l.filterMap (fun a => a.delegation)).foldl
          (fun m d => upsert d.voter (zeroAgg d.voter) (applyDel d) m) st.validators := by
  intro l
  induction l with
  | nil => intro st; rfl
  | cons a rest ih =>
    intro st
    rw [List.foldl_cons, ih]
    cases ha : a.delegation with
    | none =>
      have h1 : (foldStep st a).validators = st.validators := by
        simp [foldStep, ha]
      rw [h1, List.filterMap_cons_none ha]
    | some d =>
      have h1 : (foldStep st a).validators =
          upsert d.voter (zeroAgg d.voter) (applyDel d) st.validators := by
        simp [foldStep, ha]
      rw [h1, List.filterMap_cons_some ha, List.foldl_cons]

/-- The delegation records of voter `v` among the parsed accounts. -/
def delsFor (v : String) (accounts : List StakeAccount) : List Delegation :=
  (accounts.filterMap (fun a => a.delegation)).filter (fun d => d.voter = v)

/-- Sum of the SOL stakes of the non-deactivating records of a list. -/
def activeSum (dels : List Delegation) : ℚ :=
  ((dels.filter (fun d => d.deactivating = false)).map Delegation.solStake).sum

/-- Sum of the SOL stakes of the deactivating records of a list. -/
def deactSum (dels : List Delegation) : ℚ :=
  ((dels.filter (fun d => d.deactivating = true)).map Delegation.solStake).sum

/-- The fields of an aggregate that claim C8 compares: active stake,
deactivating stake, and account count. -/
def aggView (a : ValidatorAgg) : ℚ × ℚ × ℕ :=
  (a.activeStake, a.deactivatingStake, a.stakeAccounts)

theorem aggView_foldl_applyDel :
    ∀ (dels : List Delegation) (b : ValidatorAgg),
      aggView (dels.foldl (fun a d => applyDel d a) b) =
        (b.activeStake + activeSum dels, b.deactivatingStake + deactSum dels,
          b.stakeAccounts + dels.length) := by
  intro dels
  induction dels with
  | nil => intro b; simp [aggView, activeSum, deactSum]
  | cons d rest ih =>
    intro b
    rw [List.foldl_cons, ih (applyDel d b)]
    have ha : activeSum (d :: rest) =
        (if d.deactivating then 0 else d.solStake) + activeSum rest := by
      cases hd : d.deactivating <;> simp [activeSum, List.filter_cons, hd]
    have hdd : deactSum (d :: rest) =
        (if d.deactivating then d.solStake else 0) + deactSum rest := by
      cases hd : d.deactivating <;> simp [deactSum, List.filter_cons, hd]
    have h1 : (applyDel d b).activeStake =
        b.activeStake + (if d.deactivating then 0 else d.solStake) := by
      cases hd : d.deactivating <;> simp [applyDel, hd]
    have h2 : (applyDel d b).deactivatingStake =
        b.deactivatingStake + (if d.deactivating then d.solStake else 0) := by
      cases hd : d.deactivating <;> simp [applyDel, hd]
    have h3 : (applyDel d b).stakeAccounts = b.stakeAccounts + 1 := rfl
    rw [h1, h2, h3, ha, hdd, List.length_cons]
    simp only [Prod.mk.injEq]
    refine ⟨by ring, by ring, by omega⟩

/-- Closed form of a per-voter fold started from the fresh aggregate. -/
theorem aggView_fold_from_zero (v : String) (dels : List Delegation) :
    aggView (dels.foldl (fun a d => applyDel d a) (zeroAgg v)) =
      (activeSum dels, deactSum dels, dels.length) := by
  rw [aggView_foldl_applyDel]
  simp [zeroAgg]

/-- The aggregate stored for voter `v` is the optional fold of exactly the
records of voter `v`, in input order. -/
theorem getA_foldAccounts (v : String) (accounts : List StakeAccount) :
    getA v (foldAccounts accounts).validators =
      (delsFor v accounts).foldl
        (fun ob d => some (applyDel d (ob.getD (zeroAgg v)))) none := by
  rw [foldAccounts, validators_foldl_foldStep]
  exact getA_foldl_upsert (fun d => d.voter) zeroAgg applyDel v _ []

/-- C8: the stake-aggregation fold is order-independent — for every
permutation of the account sequence, each voter identity carries the same
active stake, deactivating stake and account count in the resulting
`validators` object. -/
theorem stake_fold_order_independent (l₁ l₂ : List StakeAccount) (hperm : l₁.Perm l₂)
    (v : String) :
    Option.map aggView (getA v (foldAccounts l₁).validators) =
      Option.map aggView (getA v (foldAccounts l₂).validators) := by
  have hd : (delsFor v l₁).Perm (delsFor v l₂) := (hperm.filterMap _).filter _
  rw [getA_foldAccounts, getA_foldAccounts]
  cases h1 : delsFor v l₁ with
  | nil =>
    rw [h1] at hd
    rw [hd.symm.eq_nil]
  | cons d rest =>
    rw [h1] at hd
    have h2ne : delsFor v l₂ ≠ [] := by
      intro hnil
      rw [hnil] at hd
      exact List.cons_ne_nil d rest hd.eq_nil
    obtain ⟨d2, rest2, h2⟩ := List.exists_cons_of_ne_nil h2ne
    rw [h2]
    rw [h2] at hd
    rw [List.foldl_cons, List.foldl_cons]
    simp only [Option.getD_none]
    rw [foldl_some_collapse, foldl_some_collapse]
    have hL : rest.foldl (fun b x => applyDel x b) (applyDel d (zeroAgg v)) =
        (d :: rest).foldl (fun b x => applyDel x b) (zeroAgg v) := rfl
    have hR : rest2.foldl (fun b x => applyDel x b) (applyDel d2 (zeroAgg v)) =
        (d2 :: rest2).foldl (fun b x => applyDel x b) (zeroAgg v) := rfl
    have ea : activeSum (d :: rest) = activeSum (d2 :: rest2) :=
      ((hd.filter _).map _).sum_eq
    have ed : deactSum (d :: rest) = deactSum (d2 :: rest2) :=
      ((hd.filter _).map _).sum_eq
    have el : (d :: rest).length = (d2 :: rest2).length := hd.length_eq
    have hfold : aggView ((d :: rest).foldl (fun b x => applyDel x b) (zeroAgg v)) =
        aggView ((d2 :: rest2).foldl (fun b x => applyDel x b) (zeroAgg v)) := by
      rw [aggView_fold_from_zero, aggView_fold_from_zero, ea, ed, el]
    rw [hL, hR]
    exact congrArg some hfold

/-- Witness for C8: two delegation records of the same voter, swapped. -/
theorem stake_fold_order_independent_witness :
    (([(⟨some ⟨1000000000, "A", sentinelEpoch, 5⟩⟩ : StakeAccount),
          ⟨some ⟨2000000000, "A", "120", 6⟩⟩] : List StakeAccount).Perm
        [⟨some ⟨2000000000, "A", "120", 6⟩⟩,
          ⟨some ⟨1000000000, "A", sentinelEpoch, 5⟩⟩]) ∧
      Option.map aggView
          (getA "A" (foldAccounts
            [⟨some ⟨1000000000, "A", sentinelEpoch, 5⟩⟩,
              ⟨some ⟨2000000000, "A", "120", 6⟩⟩]).validators) =
        Option.map aggView
          (getA "A" (foldAccounts
            [⟨some ⟨2000000000, "A", "120", 6⟩⟩,
              ⟨some ⟨1000000000, "A", sentinelEpoch, 5⟩⟩]).validators) :=
  ⟨List.Perm.swap _ _ _,
    stake_fold_order_independent _ _ (List.Perm.swap _ _ _) "A"⟩

/-! Percentage formatting (claim C5). -/

/-- C5 counterexample: the dimensional-breakdown `pct` field is produced by
`toFixed(2)` inside the engine, so it is the rounded value 33.33 and not the
plain ratio `1/3 * 100`. -/
theorem sortObj_pct_rounded :
    sortObj 3 [("A", ⟨1, 1⟩)] = [⟨"A", 1, 1, 3333 / 100⟩] ∧
      (3333 / 100 : ℚ) ≠ 1 / 3 * 100 := by
  constructor
  · norm_num [sortObj, toFixedVal, List.insertionSort, List.orderedInsert, round_eq]
  · norm_num

/-- C5 amended: the `pct` of every dimensional-breakdown row is the engine's
own `toFixed(2)` rounding of `stake / totalActive * 100` (string formatting
happens inside the engine; the same holds for the jito percentage,
`pctOfTotal` and the top-ASN percentages), while `topValidatorPct` and
`top10Pct` are plain ratios multiplied by 100 with no rounding. -/
theorem pct_fields_formatting (total t : ℚ) (obj : List (String × Tally))
    (e : SortObjEntry) (he : e ∈ sortObj total obj) (s : ℚ) (rest : List ℚ)
    (hs : s ≠ 0) (ht : t ≠ 0) :
    e.pct = toFixedVal 2 (e.stake / total * 100) ∧
      enhancedTopValidatorPct t (s :: rest) = s / t * 100 ∧
      enhancedTop10Pct t (s :: rest) = .fin (((s :: rest).take 10).sum / t * 100) := by
  refine ⟨?_, ?_, ?_⟩
  · rw [sortObj] at he
    have hmem := (List.perm_insertionSort
      (fun a b : SortObjEntry => b.stake ≤ a.stake) _).subset he
    rcases List.mem_map.mp hmem with ⟨kv, _, rfl⟩
    rfl
  · simp [enhancedTopValidatorPct, hs]
  · rw [enhancedTop10Pct, jsDiv, if_neg ht]
    rfl

/-- Witness for the amended C5 at a one-row breakdown and stakes `[1]`. -/
theorem pct_fields_formatting_witness :
    ((⟨"A", 1, 1, 3333 / 100⟩ : SortObjEntry) ∈ sortObj 3 [("A", ⟨1, 1⟩)] ∧
        (1 : ℚ) ≠ 0 ∧ (4 : ℚ) ≠ 0) ∧
      ((⟨"A", 1, 1, 3333 / 100⟩ : SortObjEntry).pct =
          toFixedVal 2 ((⟨"A", 1, 1, 3333 / 100⟩ : SortObjEntry).stake / 3 * 100) ∧
        enhancedTopValidatorPct 4 (1 :: []) = 1 / 4 * 100 ∧
        enhancedTop10Pct 4 (1 :: []) = .fin ((((1 : ℚ) :: []).take 10).sum / 4 * 100)) := by
  have hmem : (⟨"A", 1, 1, 3333 / 100⟩ : SortObjEntry) ∈ sortObj 3 [("A", ⟨1, 1⟩)] := by
    norm_num [sortObj, toFixedVal, List.insertionSort, List.orderedInsert, round_eq]
  exact ⟨⟨hmem, by norm_num, by norm_num⟩,
    pct_fields_formatting 3 4 [("A", ⟨1, 1⟩)] _ hmem 1 [] (by norm_num) (by norm_num)⟩

/-! Multi-source combiner lemmas (claim C4). -/

/-- The combined Nakamoto loop is the section-4.3 cut loop applied to the
`totalStake` values of the sorted combined aggregates. -/
theorem combinedNakLoop_eq_nakLoop (th : ℚ) :
    ∀ (l : List CombinedValidator) (run : ℚ),
      combinedNakLoop th run l = nakLoop th run (l.map (fun v => v.totalStake)) := by
  intro l
  induction l with
  | nil => intro run; rfl
  | cons v rest ih =>
    intro run
    by_cases h : th ≤ run + v.totalStake
    · simp only [combinedNakLoop, List.map_cons, nakLoop]
      rw [if_pos h, if_pos h]
    · simp only [combinedNakLoop, List.map_cons, nakLoop]
      rw [if_neg h, if_neg h, ih]

/-- `combinedTotal` equals the sum of the sorted combined distribution. -/
theorem combinedTotal_eq_sorted_sum (sources : List (String × List SimpleValidator)) :
    combinedTotal sources = ((combinedSorted sources).map (fun v => v.totalStake)).sum := by
  rw [combinedTotal, combinedSorted]
  have hperm := List.perm_insertionSort
    (fun a b : CombinedValidator => b.totalStake ≤ a.totalStake)
    ((combineAll sources).map Prod.snd)
  rw [(hperm.map (fun v : CombinedValidator => v.totalStake)).sum_eq, List.map_map]
  rfl

/-- The `(authority, validator)` pairs the combiner's nested loops traverse. -/
def sourcePairs : List (String × List SimpleValidator) → List (String × SimpleValidator)
  | [] => []
  | kl :: rest => kl.2.map (fun v => (kl.1, v)) ++ sourcePairs rest

/-- One pair folded into the combined map. -/
def combinePairStep (m : List (String × CombinedValidator))
    (p : String × SimpleValidator) : List (String × CombinedValidator) :=
  combineStep p.1 m p.2

/-- The mutation the combiner applies to an existing combined entry. -/
def combineUpd (p : String × SimpleValidator) (c : CombinedValidator) : CombinedValidator :=
  { c with
    totalStake := c.totalStake + p.2.activeStake
    sources := setA p.1 p.2.activeStake c.sources }

/-- The nested source loops equal one fold over the flattened pair list. -/
theorem combineAll_eq_pairs_fold :
    ∀ (sources : List (String × List SimpleValidator))
      (m : List (String × CombinedValidator)),
      sources.foldl (fun m kl => kl.2.foldl (combineStep kl.1) m) m =
        (sourcePairs sources).foldl combinePairStep m := by
  intro sources
  induction sources with
  | nil => intro m; rfl
  | cons kl rest ih =>
    intro m
    rw [List.foldl_cons, ih, sourcePairs, List.foldl_append, List.foldl_map]
    rfl

/-- Combined-map lookups are folds of exactly the pairs of that voter. -/
theorem getA_combineAll (v : String) (sources : List (String × List SimpleValidator)) :
    getA v (combineAll sources) =
      ((sourcePairs sources).filter (fun p => p.2.voter = v)).foldl
        (fun ob p => some (combineUpd p (ob.getD (⟨v, 0, []⟩ : CombinedValidator)))) none := by
  rw [combineAll, combineAll_eq_pairs_fold]
  have hfun : (sourcePairs sources).foldl combinePairStep [] =
      (sourcePairs sources).foldl
        (fun acc x =>
          upsert x.2.voter ((fun k => (⟨k, 0, []⟩ : CombinedValidator)) x.2.voter)
            (combineUpd x) acc) [] := rfl
  rw [hfun]
  exact getA_foldl_upsert (fun p : String × SimpleValidator => p.2.voter)
    (fun k => (⟨k, 0, []⟩ : CombinedValidator)) combineUpd v _ []

/-- Closed form of a per-voter combine fold. -/
theorem combineUpd_fold_view :
    ∀ (hits : List (String × SimpleValidator)) (c : CombinedValidator),
      (hits.foldl (fun b p => combineUpd p b) c).voter = c.voter ∧
        (hits.foldl (fun b p => combineUpd p b) c).totalStake =
          c.totalStake + ((hits.map (fun p => p.2.activeStake)).sum) := by
  intro hits
  induction hits with
  | nil => intro c; simp
  | cons p rest ih =>
    intro c
    rw [List.foldl_cons]
    obtain ⟨hv, ht⟩ := ih (combineUpd p c)
    refine ⟨hv, ?_⟩
    rw [ht]
    simp only [combineUpd, List.map_cons, List.sum_cons]
    ring

/-- `mergedContribution` is the flat sum of that voter's pairs. -/
theorem mergedContribution_eq_pairs (v : String) :
    ∀ sources : List (String × List SimpleValidator),
      mergedContribution sources v =
        (((sourcePairs sources).filter (fun p => p.2.voter = v)).map
          (fun p => p.2.activeStake)).sum := by
  intro sources
  induction sources with
  | nil => rfl
  | cons kl rest ih =>
    rw [mergedContribution, List.map_cons, List.sum_cons, sourcePairs,
      List.filter_append, List.map_append, List.sum_append]
    have h1 : ((kl.2.map (fun v' => (kl.1, v'))).filter (fun p => p.2.voter = v)) =
        (kl.2.filter (fun v' => v'.voter = v)).map (fun v' => (kl.1, v')) := by
      rw [List.filter_map]
      rfl
    rw [h1, List.map_map]
    have h2 : mergedContribution rest v =
        (((sourcePairs rest).filter (fun p => p.2.voter = v)).map
          (fun p => p.2.activeStake)).sum := ih
    rw [← h2, ← mergedContribution]
    rfl

/-- C4 amended: the combiner recomputes its Nakamoto coefficient over the
merged, deduplicated-by-identity distribution — the combined
`nakamotoCoeff33` is the section-4.3 Nakamoto function applied to the sorted
merged stakes, the combined total is that distribution's sum, and every
combined entry carries exactly the sum of its identity's per-source active
stakes.  The combined section computes no other section-4.3 metric
(superminority, HHI, Gini, top-N are absent; see the counterexample). -/
theorem combined_nakamoto_recomputed (sources : List (String × List SimpleValidator)) :
    (collectCombined sources).nakamotoCoeff33 =
      nakamoto33 (combinedTotal sources)
        ((combinedSorted sources).map (fun v => v.totalStake)) ∧
      (collectCombined sources).totalActiveStake =
        ((combinedSorted sources).map (fun v => v.totalStake)).sum ∧
      ∀ (k : String) (c : CombinedValidator),
        getA k (combineAll sources) = some c →
        c.voter = k ∧ c.totalStake = mergedContribution sources k := by
  refine ⟨?_, ?_, ?_⟩
  · have h1 : (collectCombined sources).nakamotoCoeff33 =
        combinedNakLoop (combinedTotal sources / 3) 0 (combinedSorted sources) := rfl
    rw [h1, combinedNakLoop_eq_nakLoop]
    rfl
  · have h1 : (collectCombined sources).totalActiveStake = combinedTotal sources := rfl
    rw [h1, combinedTotal_eq_sorted_sum]
  · intro k c hc
    rw [getA_combineAll] at hc
    cases hh : (sourcePairs sources).filter (fun p => p.2.voter = k) with
    | nil =>
      rw [hh] at hc
      simp at hc
    | cons p rest =>
      rw [hh, List.foldl_cons] at hc
      simp only [Option.getD_none] at hc
      rw [foldl_some_collapse] at hc
      have hc' := Option.some.inj hc
      have hfold : rest.foldl (fun b p' => combineUpd p' b)
          (combineUpd p (⟨k, 0, []⟩ : CombinedValidator)) =
          (p :: rest).foldl (fun b p' => combineUpd p' b)
            (⟨k, 0, []⟩ : CombinedValidator) := rfl
      rw [hfold] at hc'
      obtain ⟨hv, ht⟩ := combineUpd_fold_view (p :: rest) (⟨k, 0, []⟩ : CombinedValidator)
      constructor
      · rw [← hc', hv]
      · rw [← hc', ht, mergedContribution_eq_pairs, hh]
        simp

/-- Twenty-five equal-stake validators of the first authority, used by the C4
counterexample. -/
def c4TopList : List SimpleValidator :=
  [⟨"a", 100, 0, 1⟩, ⟨"b", 100, 0, 1⟩, ⟨"c", 100, 0, 1⟩, ⟨"d", 100, 0, 1⟩,
   ⟨"e", 100, 0, 1⟩, ⟨"f", 100, 0, 1⟩, ⟨"g", 100, 0, 1⟩, ⟨"h", 100, 0, 1⟩,
   ⟨"i", 100, 0, 1⟩, ⟨"j", 100, 0, 1⟩, ⟨"k", 100, 0, 1⟩, ⟨"l", 100, 0, 1⟩,
   ⟨"m", 100, 0, 1⟩, ⟨"n", 100, 0, 1⟩, ⟨"o", 100, 0, 1⟩, ⟨"p", 100, 0, 1⟩,
   ⟨"q", 100, 0, 1⟩, ⟨"r", 100, 0, 1⟩, ⟨"s", 100, 0, 1⟩, ⟨"t", 100, 0, 1⟩,
   ⟨"u", 100, 0, 1⟩, ⟨"v", 100, 0, 1⟩, ⟨"w", 100, 0, 1⟩, ⟨"x", 100, 0, 1⟩,
   ⟨"y", 100, 0, 1⟩]

/-- Two-authority input whose second authority holds stakes 50/50. -/
def c4SourcesA : List (String × List SimpleValidator) :=
  [("firep", c4TopList), ("mpa4", [⟨"z1", 50, 0, 1⟩, ⟨"z2", 50, 0, 1⟩])]

/-- The same input except the second authority holds 60/40. -/
def c4SourcesB : List (String × List SimpleValidator) :=
  [("firep", c4TopList), ("mpa4", [⟨"z1", 60, 0, 1⟩, ⟨"z2", 40, 0, 1⟩])]

/-- C4 counterexample: the two inputs produce identical combined sections
(same total, unique count, Nakamoto coefficient, and top-25 listing), yet the
HHI of their merged distributions differs — so the combiner cannot be
recomputing HHI (nor Gini, superminority, or top-N shares) over the merged
distribution: those metrics are simply absent from the combined output. -/
theorem combined_outputs_equal_but_merged_hhi_differs :
    collectCombined c4SourcesA = collectCombined c4SourcesB ∧
      hhi (combinedTotal c4SourcesA)
          ((combinedSorted c4SourcesA).map (fun v => v.totalStake)) ≠
        hhi (combinedTotal c4SourcesB)
          ((combinedSorted c4SourcesB).map (fun v => v.totalStake)) := by
  constructor
  · norm_num +decide [c4SourcesA, c4SourcesB, c4TopList, collectCombined, combineAll,
      combineStep, upsert, getA, setA, combinedTotal, combinedSorted,
      combinedNakLoop, toFixedVal, round_eq, List.insertionSort, List.orderedInsert]
  · norm_num +decide [c4SourcesA, c4SourcesB, c4TopList, hhi, combineAll, combineStep,
      upsert, getA, setA, combinedTotal, combinedSorted, List.insertionSort,
      List.orderedInsert]
